import Mathlib

/-!
Shallow embedding of the crazypdf text-layout reconstruction core.

Geometry (the Go `float64` fields) is modelled exactly over `ℚ`; run text
(Go `string`, indexed bytewise by the source) is modelled as `List Char`.
`gopdf.Text` and `internalpdf.TextWord` carry the same fields and are
modelled by the single structure `TextWord`; likewise `gopdf.Row` /
`internalpdf.TextRow` (whose `Words` list is the 1:1 image of `Content`
built by `PageTextByRow`) are modelled by `TextRow`.

Go's `sort.Slice(items, less)` is modelled as a stable sort by the
reflexive closure of `less`; for two-element and small slices Go's
implementation is insertion sort, which is stable, so tie behaviour
matches.
-/

namespace CrazyPdf

/-- A positioned glyph run: mirrors `gopdf.Text` / `internalpdf.TextWord`
(fields `S`, `X`, `Y`, `Font`, `FontSize`). -/
structure TextWord where
  S : List Char
  X : ℚ
  Y : ℚ
  Font : String
  FontSize : ℚ
deriving DecidableEq

/-- A row of runs: mirrors `gopdf.Row` (`Position`, `Content`) and
`internalpdf.TextRow` (whose `Words` equal `Content` element by element). -/
structure TextRow where
  Position : ℤ
  Content : List TextWord
deriving DecidableEq

/-- Reflexive closure of the `sort.Slice` comparator
`items[a].X < items[b].X` used by both row-based policies. -/
def rleX (a b : TextWord) : Prop := a.X ≤ b.X

instance : DecidableRel rleX :=
  fun a b => inferInstanceAs (Decidable (a.X ≤ b.X))

/-- The per-row sort by X position (`sort.Slice` in `PagePlainText` and
`extractRawText`). -/
def sortRow (items : List TextWord) : List TextWord :=
  List.insertionSort rleX items

/-- The `minCharWidth` scan loop of `PagePlainText`: walks consecutive
pairs, keeping the smallest positive per-character advance. -/
def minAdvanceLoop : ℚ → TextWord → List TextWord → ℚ
  | mcw, _, [] => mcw
  | mcw, prev, curr :: rest =>
      minAdvanceLoop
        (if 0 < prev.S.length then
          (if 0 < (curr.X - prev.X) / (prev.S.length : ℚ) ∧
              (mcw = 0 ∨ (curr.X - prev.X) / (prev.S.length : ℚ) < mcw) then
            (curr.X - prev.X) / (prev.S.length : ℚ)
          else mcw)
         else mcw)
        curr rest

/-- `minCharWidth` of `PagePlainText` on the sorted items: the scan loop
followed by the `fontSize * 0.6` fallback (with `12` replacing a
non-positive font size). -/
def minCharWidth : List TextWord → ℚ
  | [] => 0
  | first :: rest =>
      if minAdvanceLoop 0 first rest = 0 then
        (if first.FontSize ≤ 0 then 12 else first.FontSize) * 0.6
      else minAdvanceLoop 0 first rest

/-- The Conservative space decision of `PagePlainText`:
`gap > minCharWidth*0.5` with `gap = curr.X - (prev.X + len(prev.S)*minCharWidth)`. -/
def consSpace (mcw : ℚ) (prev curr : TextWord) : Bool :=
  decide (curr.X - (prev.X + (prev.S.length : ℚ) * mcw) > mcw * 0.5)

/-- The accumulation loop of `PagePlainText` after the first item:
optional space, then the current item's text. -/
def joinWords (mcw : ℚ) : TextWord → List TextWord → List Char
  | _, [] => []
  | prev, curr :: rest =>
      (if consSpace mcw prev curr then [' '] else []) ++ curr.S ++ joinWords mcw curr rest

/-- One row of `PagePlainText` (Conservative policy): sort by X, estimate
`minCharWidth`, emit first text, then the join loop. Empty rows yield the
empty line. -/
def rowPlainText (content : List TextWord) : List Char :=
  match sortRow content with
  | [] => []
  | first :: rest => first.S ++ joinWords (minCharWidth (first :: rest)) first rest

/-- Lines joined by a newline written after every element but the last
(the `if i < len(rows)-1 { buf.WriteString("\n") }` pattern). -/
def joinNl : List (List Char) → List Char
  | [] => []
  | [l] => l
  | l :: rest => l ++ '\n' :: joinNl rest

/-- `PagePlainText` over the rows of a page. -/
def pagePlainText (rows : List TextRow) : List Char :=
  joinNl (rows.map (fun row => rowPlainText row.Content))

/-- The font-size selection of `extractRawText`: `prev.FontSize`, replaced
by `curr.FontSize` when non-positive, replaced by `12` when still
non-positive. -/
def rawFontSize (prev curr : TextWord) : ℚ :=
  if (if prev.FontSize ≤ 0 then curr.FontSize else prev.FontSize) ≤ 0 then 12
  else (if prev.FontSize ≤ 0 then curr.FontSize else prev.FontSize)

/-- The Stream-Order space decision of `extractRawText`:
`gap > avgCharWidth*0.3` with `avgCharWidth = fontSize*0.5`. -/
def rawSpace (prev curr : TextWord) : Bool :=
  decide (curr.X - (prev.X + (prev.S.length : ℚ) * (rawFontSize prev curr * 0.5)) >
    rawFontSize prev curr * 0.5 * 0.3)

/-- The accumulation loop of `extractRawText` after the first word. -/
def joinWordsRaw : TextWord → List TextWord → List Char
  | _, [] => []
  | prev, curr :: rest =>
      (if rawSpace prev curr then [' '] else []) ++ curr.S ++ joinWordsRaw curr rest

/-- One row of `extractRawText` (Stream-Order policy). -/
def rowRawText (words : List TextWord) : List Char :=
  match sortRow words with
  | [] => []
  | first :: rest => first.S ++ joinWordsRaw first rest

/-- `extractRawText` over the rows of a page. -/
def extractRawText (rows : List TextRow) : List Char :=
  joinNl (rows.map (fun row => rowRawText row.Content))

/-- A page-wide styled run: mirrors `internalpdf.StyledText`. -/
structure StyledText where
  Text : List Char
  X : ℚ
  Y : ℚ
  Font : String
  FontSize : ℚ
deriving DecidableEq

/-- Reflexive closure of the `sort.Slice` comparator of
`PhysicalLayoutText`: Y descending, ties broken by X ascending. -/
def rleYX (a b : StyledText) : Prop :=
  b.Y < a.Y ∨ (a.Y = b.Y ∧ a.X ≤ b.X)

instance : DecidableRel rleYX :=
  fun a b => inferInstanceAs (Decidable (b.Y < a.Y ∨ (a.Y = b.Y ∧ a.X ≤ b.X)))

/-- The page-wide sort of `PhysicalLayoutText`. -/
def sortPage (styledTexts : List StyledText) : List StyledText :=
  List.insertionSort rleYX styledTexts

/-- The `abs` helper of the internal pdf package. -/
def absGo (x : ℚ) : ℚ := if x < 0 then -x else x

/-- The fixed `yTolerance` constant. -/
def yTolerance : ℚ := 2

/-- The line-clustering walk of `PhysicalLayoutText`: a run starts a new
line when `|currentLine.y - st.Y| > yTolerance`, otherwise it is appended;
the anchor `y` of a line is the Y of its first run and is never updated. -/
def clusterLoop : ℚ → List StyledText → List StyledText → List (ℚ × List StyledText)
  | anchorY, acc, [] => [(anchorY, acc)]
  | anchorY, acc, st :: rest =>
      if absGo (anchorY - st.Y) > yTolerance then
        (anchorY, acc) :: clusterLoop st.Y [st] rest
      else
        clusterLoop anchorY (acc ++ [st]) rest

/-- Grouping of the sorted page runs into lines (the first run always
starts a line; no runs yield no lines). -/
def clusterLines : List StyledText → List (ℚ × List StyledText)
  | [] => []
  | st :: rest => clusterLoop st.Y [st] rest

/-- Reflexive closure of the in-line `sort.Slice` comparator of
`PhysicalLayoutText` (X ascending). -/
def rleXSt (a b : StyledText) : Prop := a.X ≤ b.X

instance : DecidableRel rleXSt :=
  fun a b => inferInstanceAs (Decidable (a.X ≤ b.X))

/-- The in-line sort by X of `PhysicalLayoutText`. -/
def sortLineTexts (texts : List StyledText) : List StyledText :=
  List.insertionSort rleXSt texts

/-- The fixed `charsPerLine` grid width. -/
def charsPerLine : ℕ := 80

/-- Go's `int(f)` conversion of a float: truncation toward zero. -/
def goTrunc (q : ℚ) : ℤ :=
  if q < 0 then -((-q).num / ((-q).den : ℤ)) else q.num / (q.den : ℤ)

/-- The column computation of `PhysicalLayoutText`:
`col := int(st.X / charWidth)` clamped into `[0, charsPerLine-1]`. -/
def goColumn (charWidth x : ℚ) : ℕ :=
  (if goTrunc (x / charWidth) < 0 then 0
   else if goTrunc (x / charWidth) ≥ (charsPerLine : ℤ) then (charsPerLine : ℤ) - 1
   else goTrunc (x / charWidth)).toNat

/-- The inner character-writing loop of `PhysicalLayoutText`: writes each
character at `pos = col + ci`, skipping positions at or past
`charsPerLine`. -/
def writeRun : List Char → ℕ → List Char → List Char
  | lineChars, _, [] => lineChars
  | lineChars, pos, ch :: rest =>
      writeRun (if pos < charsPerLine then lineChars.set pos ch else lineChars) (pos + 1) rest

/-- The `trimRight` helper of the internal pdf package: drops trailing
spaces. -/
def trimRight (s : List Char) : List Char :=
  (s.reverse.dropWhile (fun c => c = ' ')).reverse

/-- Rendering of one clustered line: sort its runs by X, write each into
an 80-cell space-filled buffer, trim trailing spaces. -/
def renderLine (charWidth : ℚ) (texts : List StyledText) : List Char :=
  trimRight
    ((sortLineTexts texts).foldl
      (fun lineChars st => writeRun lineChars (goColumn charWidth st.X) st.Text)
      (List.replicate charsPerLine ' '))

/-- `PhysicalLayoutText`: empty input yields the empty string; otherwise
sort page-wide, cluster into lines, default the page width to 612 when
non-positive, render each line on the 80-column grid and join with
newlines (no trailing newline). -/
def physicalLayoutText (styledTexts : List StyledText) (pageWidth : ℚ) : List Char :=
  if styledTexts.isEmpty then []
  else
    joinNl ((clusterLines (sortPage styledTexts)).map
      (fun ln => renderLine ((if pageWidth ≤ 0 then 612 else pageWidth) / (charsPerLine : ℚ)) ln.2))

/-- Typed errors of the facade: `crazypdf.ErrDocumentClosed`, a per-page
collaborator failure, and the page-numbered wrapper produced by
`extract.AllPages`. -/
inductive PdfError where
  | documentClosed
  | rowsFailed (msg : String)
  | pageFailed (pageNum : ℕ) (cause : PdfError)
deriving DecidableEq

/-- The page loop of `extract.AllPages`: pages are extracted in order and
the first error aborts, wrapped with the 1-based page number. The
per-page extraction outcome is the `Except` value supplied for that
page. -/
def allPagesLoop : ℕ → List (Except PdfError (List Char)) → Except PdfError (List (List Char))
  | _, [] => .ok []
  | n, .error e :: _ => .error (.pageFailed n e)
  | n, .ok t :: rest => (allPagesLoop (n + 1) rest).map (fun l => t :: l)

/-- `extract.AllPages`: the closed check, then the fail-fast page loop
starting at page number 1. -/
def allPages (closed : Bool) (pageTexts : List (Except PdfError (List Char))) :
    Except PdfError (List (List Char)) :=
  if closed then .error .documentClosed else allPagesLoop 1 pageTexts

/-- `extract.Text`: the closed check, `AllPages`, then a join with the
configured page separator. -/
def textDoc (closed : Bool) (pageTexts : List (Except PdfError (List Char)))
    (pageSeparator : List Char) : Except PdfError (List Char) :=
  if closed then .error .documentClosed
  else (allPages closed pageTexts).map (fun pages => List.intercalate pageSeparator pages)

/-- `Page.PlainText`: closed check before the row fetch, then the pure
Conservative reconstruction. -/
def pagePlainTextOp (closed : Bool) (rows : Except PdfError (List TextRow)) :
    Except PdfError (List Char) :=
  if closed then .error .documentClosed else rows.map pagePlainText

/-- `Page.TextByRow`: closed check before the row fetch. -/
def pageTextByRowOp (closed : Bool) (rows : Except PdfError (List TextRow)) :
    Except PdfError (List TextRow) :=
  if closed then .error .documentClosed else rows

/-- `extract.extractRawText` on a page: `Page.TextByRow` (with its closed
check) followed by the pure Stream-Order reconstruction. -/
def extractRawTextOp (closed : Bool) (rows : Except PdfError (List TextRow)) :
    Except PdfError (List Char) :=
  (pageTextByRowOp closed rows).map extractRawText

/-- `Page.PhysicalLayoutText`: closed check before the styled-run fetch,
then the pure physical reconstruction. -/
def physicalLayoutTextOp (closed : Bool) (texts : Except PdfError (List StyledText))
    (pageWidth : ℚ) : Except PdfError (List Char) :=
  if closed then .error .documentClosed
  else texts.map (fun t => physicalLayoutText t pageWidth)

/-- Spec-side restatement of the Stream-Order width estimate, written as
the claim words it: `avgCharWidth = fontSize * 0.5` where `fontSize` is
`prev.fontSize` if positive, else `curr.fontSize` if positive, else 12. -/
def specAvgCharWidth (prev curr : TextWord) : ℚ :=
  (if 0 < prev.FontSize then prev.FontSize
   else if 0 < curr.FontSize then curr.FontSize else 12) * 0.5

/-- Spec-side restatement of the Stream-Order space rule: a space iff
`gap > avgCharWidth * 0.3` with
`gap = curr.x - (prev.x + len(prev.text) * avgCharWidth)`. -/
def specRawSpace (prev curr : TextWord) : Bool :=
  decide (curr.X - (prev.X + (prev.S.length : ℚ) * specAvgCharWidth prev curr) >
    specAvgCharWidth prev curr * 0.3)

/-- The spec-side separators for a sorted row under the Stream-Order
rule: one entry per adjacent pair, a single space or nothing. -/
def specRawSeps : TextWord → List TextWord → List (List Char)
  | _, [] => []
  | prev, curr :: rest =>
      (if specRawSpace prev curr then [' '] else []) :: specRawSeps curr rest

/-- The strictly positive per-character advances
`(curr.X - prev.X) / len(prev.S)` over consecutive pairs whose left text
is non-empty, in walk order. -/
def advancesPos : TextWord → List TextWord → List ℚ
  | _, [] => []
  | prev, curr :: rest =>
      if 0 < prev.S.length ∧ 0 < (curr.X - prev.X) / (prev.S.length : ℚ) then
        (curr.X - prev.X) / (prev.S.length : ℚ) :: advancesPos curr rest
      else advancesPos curr rest

/-- Texts interleaved with separators: the first text, then each further
text preceded by its separator. -/
def spacedConcat : List (List Char) → List (List Char) → List Char
  | [], _ => []
  | t :: ts, seps => t ++ (List.zipWith (fun s u => s ++ u) seps ts).flatten

/-! ### Concrete runs used by counterexamples and witnesses -/

/-- A run with text `a` at x = 0. -/
def cexA : TextWord := ⟨['a'], 0, 0, "F", 12⟩

/-- A run with text `b` at x = 10. -/
def cexB : TextWord := ⟨['b'], 10, 0, "F", 12⟩

/-- A run with text `a` at x = 0, for tie-breaking counterexamples. -/
def tieA : TextWord := ⟨['a'], 0, 0, "F", 12⟩

/-- A run with text `b` also at x = 0, for tie-breaking counterexamples. -/
def tieB : TextWord := ⟨['b'], 0, 0, "F", 12⟩

/-- A run at y = 100. -/
def st100 : StyledText := ⟨['x'], 0, 100, "F", 12⟩

/-- A run at y = 101.5, within clustering tolerance of y = 100. -/
def st1015 : StyledText := ⟨['y'], 0, 101.5, "F", 12⟩

/-- A run at y = 103, outside clustering tolerance of y = 100. -/
def st103 : StyledText := ⟨['z'], 0, 103, "F", 12⟩

/-- A two-character run whose x position maps to raw column 85. -/
def gridRunFar : StyledText := ⟨['h', 'i'], 650.25, 100, "F", 12⟩

/-- A run with text `a` at the left edge of a low line. -/
def stLow : StyledText := ⟨['a'], 0, 100, "F", 12⟩

/-- A run with text `b` at the left edge of a high line. -/
def stHigh : StyledText := ⟨['b'], 0, 200, "F", 12⟩

/-- A styled run with text `a` at position (0, 0). -/
def stTieA : StyledText := ⟨['a'], 0, 0, "F", 12⟩

/-- A styled run with text `b` also at position (0, 0). -/
def stTieB : StyledText := ⟨['b'], 0, 0, "F", 12⟩

/-! ### Helper lemmas on the join loops -/

theorem joinWords_spaced (mcw : ℚ) (rest : List TextWord) :
    ∀ prev : TextWord, ∃ seps : List (List Char),
      seps.length = rest.length ∧ (∀ s ∈ seps, s = [] ∨ s = [' ']) ∧
      joinWords mcw prev rest =
        (List.zipWith (fun s u => s ++ u) seps (rest.map (fun w => w.S))).flatten := by
  induction rest with
  | nil => exact fun prev => ⟨[], rfl, by simp, rfl⟩
  | cons curr rest ih =>
      intro prev
      obtain ⟨seps, hlen, hmem, heq⟩ := ih curr
      refine ⟨(if consSpace mcw prev curr then [' '] else []) :: seps, by simp [hlen], ?_, ?_⟩
      · intro s hs
        rcases List.mem_cons.mp hs with rfl | hs
        · split <;> simp
        · exact hmem s hs
      · simp only [joinWords, List.map_cons, List.zipWith_cons_cons, List.flatten_cons, heq,
          List.append_assoc]

theorem specRawSeps_mem (rest : List TextWord) :
    ∀ prev : TextWord, ∀ s ∈ specRawSeps prev rest, s = [] ∨ s = [' '] := by
  induction rest with
  | nil => intro prev s hs; simp [specRawSeps] at hs
  | cons curr rest ih =>
      intro prev s hs
      rcases List.mem_cons.mp hs with rfl | hs
      · split <;> simp
      · exact ih curr s hs

theorem rawFontSize_eq_spec (prev curr : TextWord) :
    rawFontSize prev curr =
      (if 0 < prev.FontSize then prev.FontSize
       else if 0 < curr.FontSize then curr.FontSize else 12) := by
  unfold rawFontSize
  split_ifs <;> first | rfl | linarith

theorem rawSpace_eq_spec (prev curr : TextWord) :
    rawSpace prev curr = specRawSpace prev curr := by
  unfold rawSpace specRawSpace specAvgCharWidth
  rw [rawFontSize_eq_spec]

theorem joinWordsRaw_eq_spec (rest : List TextWord) :
    ∀ prev : TextWord,
      joinWordsRaw prev rest =
        (List.zipWith (fun s u => s ++ u) (specRawSeps prev rest)
          (rest.map (fun w => w.S))).flatten := by
  induction rest with
  | nil => intro prev; rfl
  | cons curr rest ih =>
      intro prev
      simp only [joinWordsRaw, specRawSeps, List.map_cons, List.zipWith_cons_cons,
        List.flatten_cons, ih curr, rawSpace_eq_spec, List.append_assoc]

/-! ### Claim theorems -/

/-- Claim C1, as stated, is false at a concrete input: a row given as
`[text "b" at x = 10, text "a" at x = 0]` is reconstructed (under both
policies) with the run texts in x-sorted order, not in the original
per-row order; stripping the inserted whitespace yields `ab`, not the
original-order concatenation `ba`. -/
theorem C1_counterexample :
    rowPlainText [cexB, cexA] = ['a', 'b'] ∧
    rowRawText [cexB, cexA] = ['a', ' ', 'b'] ∧
    ([cexB, cexA].map (fun w => w.S)).flatten = ['b', 'a'] ∧
    List.filter (fun c => !(c == ' ')) (rowPlainText [cexB, cexA]) ≠ ['b', 'a'] ∧
    List.filter (fun c => !(c == ' ')) (rowRawText [cexB, cexA]) ≠ ['b', 'a'] := by
  have h1 : rowPlainText [cexB, cexA] = ['a', 'b'] := by
    norm_num [rowPlainText, sortRow, List.insertionSort, List.orderedInsert, rleX,
      minCharWidth, minAdvanceLoop, joinWords, consSpace, cexA, cexB]
  have h2 : rowRawText [cexB, cexA] = ['a', ' ', 'b'] := by
    norm_num [rowRawText, sortRow, List.insertionSort, List.orderedInsert, rleX,
      joinWordsRaw, rawSpace, rawFontSize, cexA, cexB]
  refine ⟨h1, h2, by decide, ?_, ?_⟩
  · rw [h1]; decide
  · rw [h2]; decide

/-- Claim C1 (amended): for every row, under both the Conservative and
Stream-Order policies, the output line is exactly the concatenation of
every run's text in x-ascending sorted per-row order — a permutation of
the row's runs — with only the empty string or a single space inserted
between adjacent texts; no run text is dropped, altered, duplicated, or
interleaved with anything other than inserted spaces. -/
theorem C1_no_content_loss (content : List TextWord) :
    (sortRow content).Perm content ∧
    (∃ seps : List (List Char), seps.length = (sortRow content).length - 1 ∧
      (∀ s ∈ seps, s = [] ∨ s = [' ']) ∧
      rowPlainText content = spacedConcat ((sortRow content).map (fun w => w.S)) seps) ∧
    (∃ seps : List (List Char), seps.length = (sortRow content).length - 1 ∧
      (∀ s ∈ seps, s = [] ∨ s = [' ']) ∧
      rowRawText content = spacedConcat ((sortRow content).map (fun w => w.S)) seps) := by
  refine ⟨List.perm_insertionSort rleX content, ?_, ?_⟩
  · cases h : sortRow content with
    | nil => exact ⟨[], by simp, by simp, by simp [rowPlainText, h, spacedConcat]⟩
    | cons first rest =>
        obtain ⟨seps, hlen, hmem, heq⟩ :=
          joinWords_spaced (minCharWidth (first :: rest)) rest first
        exact ⟨seps, by simp [hlen], hmem, by simp [rowPlainText, h, spacedConcat, heq]⟩
  · cases h : sortRow content with
    | nil => exact ⟨[], by simp, by simp, by simp [rowRawText, h, spacedConcat]⟩
    | cons first rest =>
        refine ⟨specRawSeps first rest, ?_, specRawSeps_mem rest first, ?_⟩
        · simp only [List.length_cons]
          have hlen : ∀ (l : List TextWord) (prev : TextWord),
              (specRawSeps prev l).length = l.length := by
            intro l
            induction l with
            | nil => intro prev; rfl
            | cons x xs ih => intro prev; simp [specRawSeps, ih]
          simp [hlen]
        · simp [rowRawText, h, spacedConcat, joinWordsRaw_eq_spec rest first]

/-- Claim C2: in the Conservative policy, with `prev.x = 0`,
`len(prev.text) = 5` and `minCharWidth = 2.0`, the space decision holds
iff `curr.x > 11.0`, and fails at `curr.x = 11.0` exactly — the
comparison `gap > minCharWidth * 0.5` is strict. -/
theorem C2_threshold (prev curr : TextWord) (h0 : prev.X = 0) (h5 : prev.S.length = 5) :
    (consSpace 2 prev curr = true ↔ curr.X > 11) ∧
    (curr.X = 11 → consSpace 2 prev curr = false) := by
  unfold consSpace
  rw [h0, h5]
  constructor
  · rw [decide_eq_true_iff]
    constructor <;> intro h <;> push_cast at h ⊢ <;> linarith
  · intro h11
    rw [h11, decide_eq_false_iff_not]
    push_cast
    norm_num

/-- Witness for C2 at a concrete pair: `curr.x = 12 > 11` forces a
space. -/
theorem C2_threshold_witness :
    consSpace 2 ⟨['a', 'b', 'c', 'd', 'e'], 0, 0, "F", 12⟩ ⟨['x'], 12, 0, "F", 12⟩ = true :=
  (C2_threshold ⟨['a', 'b', 'c', 'd', 'e'], 0, 0, "F", 12⟩ ⟨['x'], 12, 0, "F", 12⟩
    rfl rfl).1.mpr (by norm_num)

/-- Claim C3: in the Stream-Order policy the per-pair width estimate is
`avgCharWidth = fontSize * 0.5` with `fontSize` taken from `prev` if
positive, else `curr` if positive, else 12, and for every adjacent pair
of x-sorted runs a space is inserted iff
`gap > avgCharWidth * 0.3` with
`gap = curr.x - (prev.x + len(prev.text) * avgCharWidth)`. -/
theorem C3_raw_policy (content : List TextWord) (first : TextWord) (rest : List TextWord)
    (h : sortRow content = first :: rest) :
    (∀ prev curr : TextWord, rawFontSize prev curr * 0.5 = specAvgCharWidth prev curr) ∧
    (∀ prev curr : TextWord, rawSpace prev curr = specRawSpace prev curr) ∧
    rowRawText content =
      spacedConcat ((first :: rest).map (fun w => w.S)) (specRawSeps first rest) := by
  refine ⟨?_, fun prev curr => rawSpace_eq_spec prev curr, ?_⟩
  · intro prev curr
    rw [rawFontSize_eq_spec, specAvgCharWidth]
  · simp [rowRawText, h, spacedConcat, joinWordsRaw_eq_spec rest first]

/-- Witness for C3 on a concrete two-run row. -/
theorem C3_raw_policy_witness :
    rowRawText [cexB, cexA] =
      spacedConcat ([cexA, cexB].map (fun w => w.S)) (specRawSeps cexA [cexB]) :=
  (C3_raw_policy [cexB, cexA] cexA [cexB] (by decide)).2.2

/-! ### Helper lemmas for the minCharWidth scan and two-element sorts -/

theorem sortRow_pair {w v : TextWord} (h : w.X ≤ v.X) : sortRow [w, v] = [w, v] := by
  simp [sortRow, List.insertionSort, List.orderedInsert, rleX, h]

theorem sortRow_pair_swap {w v : TextWord} (h : ¬ v.X ≤ w.X) : sortRow [v, w] = [w, v] := by
  simp [sortRow, List.insertionSort, List.orderedInsert, rleX, h]

theorem foldl_min_mem (l : List ℚ) : ∀ a : ℚ, l.foldl min a ∈ a :: l := by
  induction l with
  | nil => intro a; simp
  | cons b l ih =>
      intro a
      rw [List.foldl_cons]
      rcases List.mem_cons.mp (ih (min a b)) with h | h
      · rw [h]
        rcases min_choice a b with h' | h' <;> rw [h'] <;> simp
      · exact List.mem_cons.mpr (Or.inr (List.mem_cons.mpr (Or.inr h)))

theorem foldl_min_le (l : List ℚ) : ∀ a x : ℚ, x ∈ a :: l → l.foldl min a ≤ x := by
  induction l with
  | nil =>
      intro a x hx
      rw [List.mem_singleton] at hx
      simp [hx]
  | cons b l ih =>
      intro a x hx
      rw [List.foldl_cons]
      rcases List.mem_cons.mp hx with h1 | hx'
      · rw [h1]
        exact le_trans (ih (min a b) (min a b) (List.mem_cons_self _ _)) (min_le_left a b)
      · rcases List.mem_cons.mp hx' with h2 | hx''
        · rw [h2]
          exact le_trans (ih (min a b) (min a b) (List.mem_cons_self _ _)) (min_le_right a b)
        · exact ih (min a b) x (List.mem_cons.mpr (Or.inr hx''))

theorem advancesPos_pos (rest : List TextWord) :
    ∀ prev : TextWord, ∀ a ∈ advancesPos prev rest, 0 < a := by
  induction rest with
  | nil => intro prev a ha; simp [advancesPos] at ha
  | cons curr rest ih =>
      intro prev a ha
      by_cases h : 0 < prev.S.length ∧ 0 < (curr.X - prev.X) / (prev.S.length : ℚ)
      · rw [advancesPos, if_pos h] at ha
        rcases List.mem_cons.mp ha with rfl | ha'
        · exact h.2
        · exact ih curr a ha'
      · rw [advancesPos, if_neg h] at ha
        exact ih curr a ha

theorem minAdvanceLoop_pos (rest : List TextWord) :
    ∀ (prev : TextWord) (m : ℚ), 0 < m →
      minAdvanceLoop m prev rest = (advancesPos prev rest).foldl min m := by
  induction rest with
  | nil => intro prev m _; rfl
  | cons curr rest ih =>
      intro prev m hm
      by_cases hl : 0 < prev.S.length
      · by_cases ha : 0 < (curr.X - prev.X) / (prev.S.length : ℚ)
        · rw [minAdvanceLoop, if_pos hl]
          by_cases hlt : (curr.X - prev.X) / (prev.S.length : ℚ) < m
          · have hcond : 0 < (curr.X - prev.X) / (prev.S.length : ℚ) ∧
                (m = 0 ∨ (curr.X - prev.X) / (prev.S.length : ℚ) < m) := ⟨ha, Or.inr hlt⟩
            rw [if_pos hcond, advancesPos, if_pos ⟨hl, ha⟩, List.foldl_cons,
              min_eq_right (le_of_lt hlt), ih curr _ ha]
          · have hcond : ¬ (0 < (curr.X - prev.X) / (prev.S.length : ℚ) ∧
                (m = 0 ∨ (curr.X - prev.X) / (prev.S.length : ℚ) < m)) :=
              fun hcon => hcon.2.elim (ne_of_gt hm) hlt
            rw [if_neg hcond, advancesPos, if_pos ⟨hl, ha⟩, List.foldl_cons,
              min_eq_left (not_lt.mp hlt), ih curr m hm]
        · have hcond : ¬ (0 < (curr.X - prev.X) / (prev.S.length : ℚ) ∧
              (m = 0 ∨ (curr.X - prev.X) / (prev.S.length : ℚ) < m)) :=
            fun hcon => ha hcon.1
          rw [minAdvanceLoop, if_pos hl, if_neg hcond,
            advancesPos, if_neg (fun hcon => ha hcon.2)]
          exact ih curr m hm
      · rw [minAdvanceLoop, if_neg hl, advancesPos, if_neg (fun hcon => hl hcon.1)]
        exact ih curr m hm

theorem minAdvanceLoop_zero (rest : List TextWord) :
    ∀ prev : TextWord,
      (advancesPos prev rest = [] ∧ minAdvanceLoop 0 prev rest = 0) ∨
      (∃ a l, advancesPos prev rest = a :: l ∧ minAdvanceLoop 0 prev rest = l.foldl min a) := by
  induction rest with
  | nil => intro prev; exact Or.inl ⟨rfl, rfl⟩
  | cons curr rest ih =>
      intro prev
      by_cases hl : 0 < prev.S.length
      · by_cases ha : 0 < (curr.X - prev.X) / (prev.S.length : ℚ)
        · refine Or.inr ⟨(curr.X - prev.X) / (prev.S.length : ℚ), advancesPos curr rest, ?_, ?_⟩
          · rw [advancesPos, if_pos ⟨hl, ha⟩]
          · rw [minAdvanceLoop, if_pos hl, if_pos ⟨ha, Or.inl rfl⟩]
            exact minAdvanceLoop_pos rest curr _ ha
        · rw [minAdvanceLoop, if_pos hl, if_neg (fun hcon => ha hcon.1),
            advancesPos, if_neg (fun hcon => ha hcon.2)]
          exact ih curr
      · rw [minAdvanceLoop, if_neg hl, advancesPos, if_neg (fun hcon => hl hcon.1)]
        exact ih curr

/-- Claim C4: in the Conservative policy, `minCharWidth` is the smallest
strictly positive per-character advance `(curr.x - prev.x) / len(prev.text)`
over consecutive x-sorted pairs with non-empty left text; when no positive
advance exists it falls back to the first run's `fontSize * 0.6` (with 12
replacing a non-positive font size); and a single-run row's output is that
run's text verbatim. -/
theorem C4_min_char_width (items : List TextWord) (first : TextWord) (rest : List TextWord)
    (h : items = first :: rest) :
    (advancesPos first rest = [] →
      minCharWidth items = (if first.FontSize ≤ 0 then (12 : ℚ) else first.FontSize) * 0.6) ∧
    (advancesPos first rest ≠ [] →
      minCharWidth items ∈ advancesPos first rest ∧
      ∀ a ∈ advancesPos first rest, minCharWidth items ≤ a) ∧
    (∀ w : TextWord, rowPlainText [w] = w.S) := by
  subst h
  refine ⟨?_, ?_, ?_⟩
  · intro hnil
    rcases minAdvanceLoop_zero rest first with ⟨_, hz⟩ | ⟨a, l, hcons, _⟩
    · rw [minCharWidth, if_pos hz]
    · rw [hnil] at hcons
      exact absurd hcons (List.cons_ne_nil a l).symm
  · intro hne
    rcases minAdvanceLoop_zero rest first with ⟨hnil, _⟩ | ⟨a, l, hcons, hv⟩
    · exact absurd hnil hne
    · have hmem : minAdvanceLoop 0 first rest ∈ advancesPos first rest := by
        rw [hv, hcons]
        exact foldl_min_mem l a
      have hpos : 0 < minAdvanceLoop 0 first rest :=
        advancesPos_pos rest first _ hmem
      have hval : minCharWidth (first :: rest) = minAdvanceLoop 0 first rest := by
        rw [minCharWidth, if_neg (ne_of_gt hpos)]
      refine ⟨hval ▸ hmem, fun b hb => ?_⟩
      rw [hval, hv]
      rw [hcons] at hb
      exact foldl_min_le l a b hb
  · intro w
    simp [rowPlainText, sortRow, List.insertionSort, List.orderedInsert, joinWords]

/-- Witness for C4 on a concrete single-run row: no positive advance
exists, the fallback estimator is used, and the output is the run's text
verbatim. -/
theorem C4_min_char_width_witness :
    minCharWidth [cexA] = (if cexA.FontSize ≤ 0 then (12 : ℚ) else cexA.FontSize) * 0.6 ∧
    rowPlainText [cexA] = cexA.S :=
  ⟨(C4_min_char_width [cexA] cexA [] rfl).1 rfl,
   (C4_min_char_width [cexA] cexA [] rfl).2.2 cexA⟩

/-- Claim C10: in the Conservative policy, a row of exactly two runs whose
x-smaller run has non-empty text and whose x-larger run lies strictly to
its right is joined with no space: `minCharWidth` is computed from that
same pair, making the gap exactly 0, which never exceeds
`minCharWidth * 0.5`. -/
theorem C10_two_run_no_space (w v : TextWord) (content : List TextWord)
    (hc : content = [w, v] ∨ content = [v, w])
    (hS : w.S ≠ []) (hlt : w.X < v.X) :
    rowPlainText content = w.S ++ v.S := by
  have hsort : sortRow content = [w, v] := by
    rcases hc with rfl | rfl
    · exact sortRow_pair (le_of_lt hlt)
    · exact sortRow_pair_swap (not_le.mpr hlt)
  have hlen : 0 < w.S.length := List.length_pos.mpr hS
  have hlenQ : (0 : ℚ) < (w.S.length : ℚ) := by exact_mod_cast hlen
  have ha : 0 < (v.X - w.X) / (w.S.length : ℚ) := div_pos (sub_pos.mpr hlt) hlenQ
  have hloop : minAdvanceLoop 0 w [v] = (v.X - w.X) / (w.S.length : ℚ) := by
    rw [minAdvanceLoop, if_pos hlen, if_pos ⟨ha, Or.inl rfl⟩]
    rfl
  have hmcw : minCharWidth [w, v] = (v.X - w.X) / (w.S.length : ℚ) := by
    rw [minCharWidth, hloop, if_neg (ne_of_gt ha)]
  have hgap : v.X - (w.X + (w.S.length : ℚ) * ((v.X - w.X) / (w.S.length : ℚ))) = 0 := by
    rw [mul_div_cancel₀ _ (ne_of_gt hlenQ)]
    ring
  have hcons : consSpace (minCharWidth [w, v]) w v = false := by
    rw [hmcw]
    unfold consSpace
    rw [decide_eq_false_iff_not, hgap]
    push_neg
    positivity
  unfold rowPlainText
  rw [hsort]
  simp [joinWords, hcons]

/-- Witness for C10 on a concrete two-run row given in reverse x-order. -/
theorem C10_two_run_no_space_witness :
    rowPlainText [cexB, cexA] = cexA.S ++ cexB.S :=
  C10_two_run_no_space cexA cexB [cexB, cexA] (Or.inr rfl) (by decide) (by decide)

/-! ### Fail-fast batch extraction and closed-document checks -/

theorem allPagesLoop_first_error (okPages : List (List Char)) :
    ∀ (n : ℕ) (e : PdfError) (suffix : List (Except PdfError (List Char))),
      allPagesLoop n (okPages.map Except.ok ++ .error e :: suffix) =
        .error (.pageFailed (n + okPages.length) e) := by
  induction okPages with
  | nil => intro n e suffix; rfl
  | cons t rest ih =>
      intro n e suffix
      rw [List.map_cons, List.cons_append, allPagesLoop, ih (n + 1) e suffix]
      have harith : n + 1 + rest.length = n + (rest.length + 1) := by omega
      rw [harith]
      rfl

/-- Claim C7: whole-document extraction is fail-fast: with the document
open, when every page before some position succeeds and the page at that
position fails with cause `e`, `AllPages` returns the error wrapped with
that page's 1-based number and no partial result is produced (the result
is an error, never a list of page texts). -/
theorem C7_fail_fast (okPages : List (List Char)) (e : PdfError)
    (suffix : List (Except PdfError (List Char))) :
    allPages false (okPages.map Except.ok ++ .error e :: suffix) =
      .error (.pageFailed (okPages.length + 1) e) := by
  unfold allPages
  rw [if_neg (by simp), allPagesLoop_first_error okPages 1 e suffix]
  rw [Nat.add_comm 1 okPages.length]

/-- Witness for C7: a 3-page document whose second page fails yields the
error wrapped with page number 2, and no output for pages 1 or 3. -/
theorem C7_fail_fast_witness :
    allPages false [.ok ['p'], .error (.rowsFailed ("bad row")), .ok ['q']] =
      .error (.pageFailed 2 (.rowsFailed ("bad row"))) :=
  C7_fail_fast [['p']] (.rowsFailed ("bad row")) [.ok ['q']]

/-- Claim C8: for every layout mode, any extraction operation invoked
after the document has been released returns the typed `documentClosed`
error, whatever the page content fetch would have produced (the closed
check precedes any page access); and on an open document the
reconstruction algorithms are total — they return a string for every
well-formed input. -/
theorem C8_closed_check :
    (∀ rows : Except PdfError (List TextRow),
      pagePlainTextOp true rows = .error .documentClosed) ∧
    (∀ rows : Except PdfError (List TextRow),
      pageTextByRowOp true rows = .error .documentClosed) ∧
    (∀ rows : Except PdfError (List TextRow),
      extractRawTextOp true rows = .error .documentClosed) ∧
    (∀ (texts : Except PdfError (List StyledText)) (pw : ℚ),
      physicalLayoutTextOp true texts pw = .error .documentClosed) ∧
    (∀ pageTexts : List (Except PdfError (List Char)),
      allPages true pageTexts = .error .documentClosed) ∧
    (∀ (pageTexts : List (Except PdfError (List Char))) (sep : List Char),
      textDoc true pageTexts sep = .error .documentClosed) ∧
    (∀ rows : List TextRow,
      pagePlainTextOp false (.ok rows) = .ok (pagePlainText rows)) ∧
    (∀ rows : List TextRow,
      extractRawTextOp false (.ok rows) = .ok (extractRawText rows)) ∧
    (∀ (texts : List StyledText) (pw : ℚ),
      physicalLayoutTextOp false (.ok texts) pw = .ok (physicalLayoutText texts pw)) :=
  ⟨fun _ => rfl, fun _ => rfl, fun _ => rfl, fun _ _ => rfl, fun _ => rfl,
   fun _ _ => rfl, fun _ => rfl, fun _ => rfl, fun _ _ => rfl⟩

/-! ### Line assembler invariants -/

theorem clusterLoop_spec (rest : List StyledText) :
    ∀ (anchorY : ℚ) (acc : List StyledText),
      acc.head?.map (fun r => r.Y) = some anchorY →
      (∀ r ∈ acc, absGo (anchorY - r.Y) ≤ yTolerance) →
      ((clusterLoop anchorY acc rest).map Prod.snd).flatten = acc ++ rest ∧
      (∀ l ∈ clusterLoop anchorY acc rest,
        l.2.head?.map (fun r => r.Y) = some l.1 ∧
        ∀ r ∈ l.2, absGo (l.1 - r.Y) ≤ yTolerance) ∧
      List.Chain' (fun a b => absGo (a.1 - b.1) > yTolerance) (clusterLoop anchorY acc rest) ∧
      (clusterLoop anchorY acc rest).head?.map Prod.fst = some anchorY := by
  induction rest with
  | nil =>
      intro anchorY acc hhead htol
      refine ⟨by simp [clusterLoop], ?_, by simp [clusterLoop], by simp [clusterLoop]⟩
      intro l hl
      rw [clusterLoop, List.mem_singleton] at hl
      subst hl
      exact ⟨hhead, htol⟩
  | cons st rest ih =>
      intro anchorY acc hhead htol
      by_cases hfar : absGo (anchorY - st.Y) > yTolerance
      · rw [clusterLoop, if_pos hfar]
        have hself : ∀ r ∈ [st], absGo (st.Y - r.Y) ≤ yTolerance := by
          intro r hr
          rw [List.mem_singleton] at hr
          subst hr
          simp [absGo, yTolerance]
        obtain ⟨ihflat, ihmem, ihchain, ihhead⟩ := ih st.Y [st] (by simp) hself
        refine ⟨by simp [ihflat], ?_, ?_, by simp⟩
        · intro l hl
          rcases List.mem_cons.mp hl with h | h
          · subst h
            exact ⟨hhead, htol⟩
          · exact ihmem l h
        · refine List.chain'_cons'.mpr ⟨?_, ihchain⟩
          intro b hb
          have hb' : (clusterLoop st.Y [st] rest).head?.map Prod.fst = some b.1 := by
            rw [hb]
            rfl
          rw [ihhead] at hb'
          have hby : b.1 = st.Y := Option.some.inj hb'.symm
          rw [hby]
          exact hfar
      · rw [clusterLoop, if_neg hfar]
        have hhead' : (acc ++ [st]).head?.map (fun r => r.Y) = some anchorY := by
          rcases acc with _ | ⟨a, acc⟩
          · simp at hhead
          · simpa using hhead
        have htol' : ∀ r ∈ acc ++ [st], absGo (anchorY - r.Y) ≤ yTolerance := by
          intro r hr
          rcases List.mem_append.mp hr with h | h
          · exact htol r h
          · rw [List.mem_singleton] at h
            subst h
            exact not_lt.mp hfar
        obtain ⟨ihflat, ihmem, ihchain, ihhead⟩ := ih anchorY (acc ++ [st]) hhead' htol'
        exact ⟨by simpa using ihflat, ihmem, ihchain, ihhead⟩

/-- Claim C5: the Line Assembler walks the page runs sorted by y
descending (ties by x ascending) and clusters them: every produced line's
anchor is the Y of its first run (fixed, never recomputed), every run in a
line is within the 2.0 tolerance of that fixed anchor, consecutive lines'
anchors differ by more than the tolerance (a new line starts exactly on
tolerance violation), the lines partition the sorted runs in order, and
concretely runs at y = 100 and y = 101.5 share a line while runs at
y = 100 and y = 103 are split into separate lines. -/
theorem C5_line_assembler (sts : List StyledText) :
    ((clusterLines (sortPage sts)).map Prod.snd).flatten = sortPage sts ∧
    (∀ l ∈ clusterLines (sortPage sts),
      l.2.head?.map (fun r => r.Y) = some l.1 ∧
      ∀ r ∈ l.2, absGo (l.1 - r.Y) ≤ yTolerance) ∧
    List.Chain' (fun a b => absGo (a.1 - b.1) > yTolerance) (clusterLines (sortPage sts)) ∧
    (clusterLines (sortPage [st100, st1015])).length = 1 ∧
    (clusterLines (sortPage [st100, st103])).length = 2 := by
  have hgen : ∀ l : List StyledText,
      ((clusterLines l).map Prod.snd).flatten = l ∧
      (∀ ln ∈ clusterLines l,
        ln.2.head?.map (fun r => r.Y) = some ln.1 ∧
        ∀ r ∈ ln.2, absGo (ln.1 - r.Y) ≤ yTolerance) ∧
      List.Chain' (fun a b => absGo (a.1 - b.1) > yTolerance) (clusterLines l) := by
    intro l
    cases l with
    | nil => exact ⟨rfl, by simp [clusterLines], by simp [clusterLines]⟩
    | cons st rest =>
        have hself : ∀ r ∈ [st], absGo (st.Y - r.Y) ≤ yTolerance := by
          intro r hr
          rw [List.mem_singleton] at hr
          subst hr
          simp [absGo, yTolerance]
        obtain ⟨hflat, hmem, hchain, _⟩ := clusterLoop_spec rest st.Y [st] (by simp) hself
        exact ⟨by simpa [clusterLines] using hflat, by simpa [clusterLines] using hmem,
          by simpa [clusterLines] using hchain⟩
  refine ⟨(hgen (sortPage sts)).1, (hgen (sortPage sts)).2.1, (hgen (sortPage sts)).2.2, ?_, ?_⟩
  · norm_num [clusterLines, clusterLoop, sortPage, List.insertionSort, List.orderedInsert,
      rleYX, absGo, yTolerance, st100, st1015]
  · norm_num [clusterLines, clusterLoop, sortPage, List.insertionSort, List.orderedInsert,
      rleYX, absGo, yTolerance, st100, st103]

/-- Witness for C5: the partition equation of the assembled lines at a
concrete input. -/
theorem C5_line_assembler_witness :
    ((clusterLines (sortPage [st100, st103])).map Prod.snd).flatten = sortPage [st100, st103] :=
  (C5_line_assembler [st100, st103]).1

/-! ### Physical grid renderer -/

theorem writeRun_length (text : List Char) :
    ∀ (grid : List Char) (pos : ℕ), (writeRun grid pos text).length = grid.length := by
  induction text with
  | nil => intro grid pos; rfl
  | cons c cs ih =>
      intro grid pos
      rw [writeRun, ih]
      split <;> simp

theorem writeRun_getElem (text : List Char) :
    ∀ (grid : List Char) (pos i : ℕ), grid.length = charsPerLine →
      (writeRun grid pos text)[i]? =
        (if pos ≤ i ∧ i < pos + text.length ∧ i < charsPerLine then text[i - pos]?
         else grid[i]?) := by
  induction text with
  | nil =>
      intro grid pos i _
      rw [writeRun, if_neg]
      rintro ⟨h1, h2, -⟩
      simp only [List.length_nil, Nat.add_zero] at h2
      omega
  | cons c cs ih =>
      intro grid pos i hg
      rw [writeRun]
      by_cases hpos : pos < charsPerLine
      · rw [if_pos hpos, ih (grid.set pos c) (pos + 1) i (by rw [List.length_set]; exact hg)]
        by_cases h1 : pos + 1 ≤ i ∧ i < pos + 1 + cs.length ∧ i < charsPerLine
        · rw [if_pos h1, if_pos (⟨by omega, by simp only [List.length_cons]; omega, h1.2.2⟩ :
            pos ≤ i ∧ i < pos + (c :: cs).length ∧ i < charsPerLine)]
          have hsub : i - pos = (i - (pos + 1)) + 1 := by omega
          rw [hsub, List.getElem?_cons_succ]
        · rw [if_neg h1, List.getElem?_set]
          by_cases h2 : i = pos
          · subst h2
            rw [if_pos rfl, if_pos (by rw [hg]; exact hpos),
              if_pos (⟨le_rfl, by simp only [List.length_cons]; omega, hpos⟩ :
                i ≤ i ∧ i < i + (c :: cs).length ∧ i < charsPerLine),
              Nat.sub_self, List.getElem?_cons_zero]
          · rw [if_neg (fun hh => h2 hh.symm), if_neg]
            rintro ⟨ha, hb, hc⟩
            simp only [List.length_cons] at hb
            exact h1 ⟨by omega, by omega, hc⟩
      · rw [if_neg hpos, ih grid (pos + 1) i hg]
        by_cases h1 : pos + 1 ≤ i ∧ i < pos + 1 + cs.length ∧ i < charsPerLine
        · obtain ⟨ha, hb, hc⟩ := h1
          omega
        · rw [if_neg h1, if_neg]
          rintro ⟨ha, hb, hc⟩
          omega

theorem goTrunc_neg {q : ℚ} (hq : q < 0) : goTrunc q = ⌈q⌉ := by
  rw [goTrunc, if_pos hq, ← Rat.floor_def, Int.floor_neg, neg_neg]

theorem goTrunc_nonneg {q : ℚ} (hq : ¬ q < 0) : goTrunc q = ⌊q⌋ := by
  rw [goTrunc, if_neg hq, ← Rat.floor_def]

theorem goColumn_eq_clamp_floor (cw x : ℚ) (hcw : 0 < cw) :
    (goColumn cw x : ℤ) = min 79 (max 0 ⌊x / cw⌋) := by
  unfold goColumn
  by_cases hq : x / cw < 0
  · rw [goTrunc_neg hq]
    have hceil : ⌈x / cw⌉ ≤ 0 := Int.ceil_le.mpr (by exact_mod_cast hq.le)
    have hfloor : ⌊x / cw⌋ < 0 := Int.floor_lt.mpr (by exact_mod_cast hq)
    rw [max_eq_left hfloor.le, min_eq_right (by norm_num : (0 : ℤ) ≤ 79)]
    split_ifs with h1 h2
    · simp
    · exfalso
      rw [charsPerLine] at h2
      omega
    · have : ⌈x / cw⌉ = 0 := by omega
      simp [this]
  · rw [goTrunc_nonneg hq]
    have hfl0 : 0 ≤ ⌊x / cw⌋ := Int.floor_nonneg.mpr (not_lt.mp hq)
    rw [max_eq_right hfl0]
    split_ifs with h1 h2
    · omega
    · rw [charsPerLine] at h2
      rw [min_eq_left (by omega : (79 : ℤ) ≤ ⌊x / cw⌋)]
      simp [charsPerLine]
    · rw [charsPerLine] at h2
      rw [min_eq_right (by omega : ⌊x / cw⌋ ≤ (79 : ℤ))]
      exact Int.toNat_of_nonneg hfl0

theorem goColumn_612_650 : goColumn ((612 : ℚ) / (charsPerLine : ℚ)) (650.25 : ℚ) = 79 := by
  have h : (650.25 : ℚ) / ((612 : ℚ) / (charsPerLine : ℚ)) = 85 := by norm_num [charsPerLine]
  rw [goColumn, h, goTrunc_nonneg (by norm_num)]
  norm_num [charsPerLine]
  decide

theorem goColumn_612_zero : goColumn ((612 : ℚ) / (charsPerLine : ℚ)) (0 : ℚ) = 0 := by
  have h : (0 : ℚ) / ((612 : ℚ) / (charsPerLine : ℚ)) = 0 := by norm_num
  rw [goColumn, h, goTrunc_nonneg (by norm_num)]
  norm_num [charsPerLine]

theorem physicalLayoutText_far :
    physicalLayoutText [gridRunFar] 612 = List.replicate 79 ' ' ++ ['h'] := by
  have h1 : physicalLayoutText [gridRunFar] 612 =
      trimRight (writeRun (List.replicate charsPerLine ' ')
        (goColumn ((612 : ℚ) / (charsPerLine : ℚ)) gridRunFar.X) gridRunFar.Text) := by
    simp only [physicalLayoutText, sortPage, List.insertionSort, List.orderedInsert,
      clusterLines, clusterLoop, joinNl, renderLine, sortLineTexts, List.map, List.foldl]
    norm_num
  have h2 : gridRunFar.X = (650.25 : ℚ) := rfl
  rw [h1, h2, goColumn_612_650]
  decide

theorem physicalLayoutText_twoLines :
    physicalLayoutText [stLow, stHigh] 612 = ['b', '\n', 'a'] := by
  have hmain : physicalLayoutText [stLow, stHigh] 612 =
      joinNl [trimRight (writeRun (List.replicate charsPerLine ' ') 0 ['b']),
              trimRight (writeRun (List.replicate charsPerLine ' ') 0 ['a'])] := by
    norm_num [physicalLayoutText, sortPage, List.insertionSort, List.orderedInsert, rleYX,
      clusterLines, clusterLoop, absGo, yTolerance, renderLine, sortLineTexts, stLow, stHigh,
      goColumn_612_zero]
  rw [hmain]
  decide

/-- Claim C6: the Physical Grid Renderer uses
`charWidth = pageWidth / 80` with the page width replaced by 612 when
non-positive; every run's column equals `clamp(floor(run.x / charWidth), 0, 79)`
(Go's truncating cast agrees with floor-then-clamp for a positive char
width); characters are written from that column onward with writes at or
past column 80 discarded rather than wrapped; a run mapping to raw
column 85 is clamped to column 79 and its overflow characters are
truncated; rendered lines are trimmed of trailing spaces and joined with
single newlines without a trailing separator; and empty input yields the
empty string. -/
theorem C6_physical_grid :
    (∀ (texts : List StyledText) (pw : ℚ), pw ≤ 0 →
      physicalLayoutText texts pw = physicalLayoutText texts 612) ∧
    (∀ cw x : ℚ, 0 < cw → (goColumn cw x : ℤ) = min 79 (max 0 ⌊x / cw⌋)) ∧
    (∀ (text grid : List Char) (pos i : ℕ), grid.length = charsPerLine →
      (writeRun grid pos text)[i]? =
        (if pos ≤ i ∧ i < pos + text.length ∧ i < charsPerLine then text[i - pos]?
         else grid[i]?)) ∧
    (∀ pw : ℚ, physicalLayoutText [] pw = []) ∧
    ⌊(650.25 : ℚ) / ((612 : ℚ) / (charsPerLine : ℚ))⌋ = 85 ∧
    goColumn ((612 : ℚ) / (charsPerLine : ℚ)) (650.25 : ℚ) = 79 ∧
    physicalLayoutText [gridRunFar] 612 = List.replicate 79 ' ' ++ ['h'] ∧
    physicalLayoutText [stLow, stHigh] 612 = ['b', '\n', 'a'] := by
  refine ⟨?_, goColumn_eq_clamp_floor, writeRun_getElem, fun pw => rfl, ?_,
    goColumn_612_650, physicalLayoutText_far, physicalLayoutText_twoLines⟩
  · intro texts pw h
    unfold physicalLayoutText
    rw [if_pos h, if_neg (by norm_num : ¬ (612 : ℚ) ≤ 0)]
  · have h : (650.25 : ℚ) / ((612 : ℚ) / (charsPerLine : ℚ)) = 85 := by norm_num [charsPerLine]
    rw [h]
    simp

/-- Witness for C6: the page-width default, the clamp formula and the
write semantics applied at concrete inputs. -/
theorem C6_physical_grid_witness :
    physicalLayoutText [gridRunFar] (-1) = physicalLayoutText [gridRunFar] 612 ∧
    (goColumn 1 (5 : ℚ) : ℤ) = min 79 (max 0 ⌊(5 : ℚ) / 1⌋) ∧
    (writeRun (List.replicate charsPerLine ' ') 0 ['a'])[0]? =
      (if 0 ≤ 0 ∧ 0 < 0 + (['a'] : List Char).length ∧ 0 < charsPerLine then
        (['a'] : List Char)[0 - 0]?
       else (List.replicate charsPerLine ' ')[0]?) :=
  ⟨C6_physical_grid.1 [gridRunFar] (-1) (by norm_num),
   C6_physical_grid.2.1 1 5 (by norm_num),
   C6_physical_grid.2.2.1 ['a'] (List.replicate charsPerLine ' ') 0 0 (by simp)⟩

/-! ### Determinism under permutation -/

theorem rowPlainText_tie_ab : rowPlainText [tieA, tieB] = ['a', 'b'] := by
  norm_num [rowPlainText, sortRow, List.insertionSort, List.orderedInsert, rleX,
    minCharWidth, minAdvanceLoop, joinWords, consSpace, tieA, tieB]

theorem rowPlainText_tie_ba : rowPlainText [tieB, tieA] = ['b', 'a'] := by
  norm_num [rowPlainText, sortRow, List.insertionSort, List.orderedInsert, rleX,
    minCharWidth, minAdvanceLoop, joinWords, consSpace, tieA, tieB]

theorem rowRawText_tie_ab : rowRawText [tieA, tieB] = ['a', 'b'] := by
  norm_num [rowRawText, sortRow, List.insertionSort, List.orderedInsert, rleX,
    joinWordsRaw, rawSpace, rawFontSize, tieA, tieB]

theorem rowRawText_tie_ba : rowRawText [tieB, tieA] = ['b', 'a'] := by
  norm_num [rowRawText, sortRow, List.insertionSort, List.orderedInsert, rleX,
    joinWordsRaw, rawSpace, rawFontSize, tieA, tieB]

theorem physical_tie_ab : physicalLayoutText [stTieA, stTieB] 612 = ['b'] := by
  have hmain : physicalLayoutText [stTieA, stTieB] 612 =
      trimRight (writeRun (writeRun (List.replicate charsPerLine ' ') 0 ['a']) 0 ['b']) := by
    norm_num [physicalLayoutText, sortPage, List.insertionSort, List.orderedInsert, rleYX,
      clusterLines, clusterLoop, absGo, yTolerance, renderLine, sortLineTexts, rleXSt,
      joinNl, stTieA, stTieB, goColumn_612_zero]
  rw [hmain]
  decide

theorem physical_tie_ba : physicalLayoutText [stTieB, stTieA] 612 = ['a'] := by
  have hmain : physicalLayoutText [stTieB, stTieA] 612 =
      trimRight (writeRun (writeRun (List.replicate charsPerLine ' ') 0 ['b']) 0 ['a']) := by
    norm_num [physicalLayoutText, sortPage, List.insertionSort, List.orderedInsert, rleYX,
      clusterLines, clusterLoop, absGo, yTolerance, renderLine, sortLineTexts, rleXSt,
      joinNl, stTieA, stTieB, goColumn_612_zero]
  rw [hmain]
  decide

/-- Claim C9, as stated, is false at a concrete input: two runs sharing
the same position but carrying different texts form the same multiset in
either input order, yet every layout mode produces different output for
the two orders — the position sort cannot canonicalize ties. -/
theorem C9_counterexample :
    List.Perm [tieA, tieB] [tieB, tieA] ∧
    rowPlainText [tieA, tieB] ≠ rowPlainText [tieB, tieA] ∧
    rowRawText [tieA, tieB] ≠ rowRawText [tieB, tieA] ∧
    List.Perm [stTieA, stTieB] [stTieB, stTieA] ∧
    physicalLayoutText [stTieA, stTieB] 612 ≠ physicalLayoutText [stTieB, stTieA] 612 := by
  refine ⟨by decide, ?_, ?_, by decide, ?_⟩
  · rw [rowPlainText_tie_ab, rowPlainText_tie_ba]
    decide
  · rw [rowRawText_tie_ab, rowRawText_tie_ba]
    decide
  · rw [physical_tie_ab, physical_tie_ba]
    decide

theorem sortRow_perm_invariant {c c' : List TextWord} (hperm : c.Perm c')
    (hx : c.Pairwise (fun u v => u.X ≠ v.X)) : sortRow c = sortRow c' := by
  haveI : IsAntisymm TextWord (fun u v => u.X < v.X) :=
    ⟨fun a b h h' => absurd h' (lt_asymm h)⟩
  haveI : IsTotal TextWord rleX := ⟨fun a b => le_total a.X b.X⟩
  haveI : IsTrans TextWord rleX := ⟨fun a b c h h' => le_trans h h'⟩
  have hsymm : ∀ {u v : TextWord}, u.X ≠ v.X → v.X ≠ u.X := fun h => h.symm
  have hne1 : (sortRow c).Pairwise (fun u v => u.X ≠ v.X) :=
    (List.Perm.pairwise_iff hsymm (List.perm_insertionSort rleX c)).mpr hx
  have hne2 : (sortRow c').Pairwise (fun u v => u.X ≠ v.X) :=
    (List.Perm.pairwise_iff hsymm (List.perm_insertionSort rleX c')).mpr
      ((List.Perm.pairwise_iff hsymm hperm).mp hx)
  have hlt1 : (sortRow c).Pairwise (fun u v => u.X < v.X) :=
    ((List.sorted_insertionSort rleX c).and hne1).imp
      (fun h => lt_of_le_of_ne h.1 h.2)
  have hlt2 : (sortRow c').Pairwise (fun u v => u.X < v.X) :=
    ((List.sorted_insertionSort rleX c').and hne2).imp
      (fun h => lt_of_le_of_ne h.1 h.2)
  exact List.eq_of_perm_of_sorted
    ((List.perm_insertionSort rleX c).trans
      (hperm.trans (List.perm_insertionSort rleX c').symm))
    hlt1 hlt2

theorem rowPlainText_perm {c c' : List TextWord} (hperm : c.Perm c')
    (hx : c.Pairwise (fun u v => u.X ≠ v.X)) : rowPlainText c = rowPlainText c' := by
  unfold rowPlainText
  rw [sortRow_perm_invariant hperm hx]

theorem rowRawText_perm {c c' : List TextWord} (hperm : c.Perm c')
    (hx : c.Pairwise (fun u v => u.X ≠ v.X)) : rowRawText c = rowRawText c' := by
  unfold rowRawText
  rw [sortRow_perm_invariant hperm hx]

theorem sortPage_perm_invariant {t t' : List StyledText} (hperm : t.Perm t')
    (hx : t.Pairwise (fun u v => u.Y ≠ v.Y ∨ u.X ≠ v.X)) : sortPage t = sortPage t' := by
  haveI : IsAntisymm StyledText (fun u v => v.Y < u.Y ∨ (u.Y = v.Y ∧ u.X < v.X)) := ⟨by
    intro a b h h'
    exfalso
    rcases h with h | ⟨he, hxlt⟩ <;> rcases h' with h' | ⟨he', hxlt'⟩ <;> linarith⟩
  haveI : IsTotal StyledText rleYX := ⟨by
    intro a b
    rcases lt_trichotomy a.Y b.Y with h | h | h
    · exact Or.inr (Or.inl h)
    · rcases le_total a.X b.X with hxle | hxle
      · exact Or.inl (Or.inr ⟨h, hxle⟩)
      · exact Or.inr (Or.inr ⟨h.symm, hxle⟩)
    · exact Or.inl (Or.inl h)⟩
  haveI : IsTrans StyledText rleYX := ⟨by
    intro a b c h h'
    rcases h with h | ⟨he, hxle⟩ <;> rcases h' with h' | ⟨he', hxle'⟩
    · exact Or.inl (lt_trans h' h)
    · exact Or.inl (by rw [← he']; exact h)
    · exact Or.inl (by rw [he]; exact h')
    · exact Or.inr ⟨he.trans he', le_trans hxle hxle'⟩⟩
  have hsymm : ∀ {u v : StyledText}, (u.Y ≠ v.Y ∨ u.X ≠ v.X) → (v.Y ≠ u.Y ∨ v.X ≠ u.X) :=
    fun h => h.imp Ne.symm Ne.symm
  have hne1 : (sortPage t).Pairwise (fun u v => u.Y ≠ v.Y ∨ u.X ≠ v.X) :=
    (List.Perm.pairwise_iff hsymm (List.perm_insertionSort rleYX t)).mpr hx
  have hne2 : (sortPage t').Pairwise (fun u v => u.Y ≠ v.Y ∨ u.X ≠ v.X) :=
    (List.Perm.pairwise_iff hsymm (List.perm_insertionSort rleYX t')).mpr
      ((List.Perm.pairwise_iff hsymm hperm).mp hx)
  have hconv : ∀ {u v : StyledText}, rleYX u v ∧ (u.Y ≠ v.Y ∨ u.X ≠ v.X) →
      (v.Y < u.Y ∨ (u.Y = v.Y ∧ u.X < v.X)) := by
    rintro u v ⟨hle, hne⟩
    rcases hle with h | ⟨he, hxle⟩
    · exact Or.inl h
    · rcases hne with h | h
      · exact absurd he h
      · exact Or.inr ⟨he, lt_of_le_of_ne hxle h⟩
  have hlt1 : (sortPage t).Pairwise (fun u v => v.Y < u.Y ∨ (u.Y = v.Y ∧ u.X < v.X)) :=
    ((List.sorted_insertionSort rleYX t).and hne1).imp hconv
  have hlt2 : (sortPage t').Pairwise (fun u v => v.Y < u.Y ∨ (u.Y = v.Y ∧ u.X < v.X)) :=
    ((List.sorted_insertionSort rleYX t').and hne2).imp hconv
  exact List.eq_of_perm_of_sorted
    ((List.perm_insertionSort rleYX t).trans
      (hperm.trans (List.perm_insertionSort rleYX t').symm))
    hlt1 hlt2

theorem rowsMap_perm {rows rows' : List TextRow}
    (hf : List.Forall₂ (fun r r' => r.Content.Perm r'.Content ∧
      r.Content.Pairwise (fun u v => u.X ≠ v.X)) rows rows') :
    rows.map (fun row => rowPlainText row.Content) =
      rows'.map (fun row => rowPlainText row.Content) ∧
    rows.map (fun row => rowRawText row.Content) =
      rows'.map (fun row => rowRawText row.Content) := by
  induction hf with
  | nil => exact ⟨rfl, rfl⟩
  | cons h1 h2 ih =>
      refine ⟨?_, ?_⟩
      · rw [List.map_cons, List.map_cons, rowPlainText_perm h1.1 h1.2, ih.1]
      · rw [List.map_cons, List.map_cons, rowRawText_perm h1.1 h1.2, ih.2]

/-- Claim C9 (amended): extraction is deterministic under permutation of
the input provided run positions are distinct keys for the relevant sort:
for the row-based policies, permuting runs within rows whose runs have
pairwise distinct x positions leaves the output unchanged, and for the
Physical path, permuting page runs with pairwise distinct (y, x)
positions leaves the output unchanged, because runs are re-sorted by
position before processing. With tied positions the claim fails (see the
counterexample): the sort cannot canonicalize ties. -/
theorem C9_determinism (rows rows' : List TextRow) (texts texts' : List StyledText) (pw : ℚ)
    (hf : List.Forall₂ (fun r r' => r.Content.Perm r'.Content ∧
      r.Content.Pairwise (fun u v => u.X ≠ v.X)) rows rows')
    (hperm : texts.Perm texts')
    (hx : texts.Pairwise (fun u v => u.Y ≠ v.Y ∨ u.X ≠ v.X)) :
    pagePlainText rows = pagePlainText rows' ∧
    extractRawText rows = extractRawText rows' ∧
    physicalLayoutText texts pw = physicalLayoutText texts' pw := by
  refine ⟨?_, ?_, ?_⟩
  · unfold pagePlainText
    rw [(rowsMap_perm hf).1]
  · unfold extractRawText
    rw [(rowsMap_perm hf).2]
  · have hie : texts.isEmpty = texts'.isEmpty := by
      cases texts with
      | nil =>
          have h0 : texts' = [] := hperm.symm.eq_nil
          rw [h0]
      | cons a t =>
          cases texts' with
          | nil => exact absurd hperm.eq_nil (by simp)
          | cons b t' => rfl
    unfold physicalLayoutText
    rw [hie, sortPage_perm_invariant hperm hx]

/-- Witness for C9 (amended) at concrete distinct-position inputs. -/
theorem C9_determinism_witness :
    pagePlainText [⟨0, [cexA, cexB]⟩] = pagePlainText [⟨0, [cexB, cexA]⟩] ∧
    extractRawText [⟨0, [cexA, cexB]⟩] = extractRawText [⟨0, [cexB, cexA]⟩] ∧
    physicalLayoutText [stLow, stHigh] 612 = physicalLayoutText [stHigh, stLow] 612 :=
  C9_determinism [⟨0, [cexA, cexB]⟩] [⟨0, [cexB, cexA]⟩] [stLow, stHigh] [stHigh, stLow] 612
    (List.Forall₂.cons ⟨by decide, by decide⟩ List.Forall₂.nil)
    (by decide) (by decide)

end CrazyPdf
